import Mathlib

/-!
Verification of the quantpy core (channel.py and tomography.py): a shallow
embedding of the Channel class (dual function/Choi representation with lazy
cached conversion) and of the Tomograph class (incremental experiments and
the two point estimators), with theorems settling the spec claims.
-/

open scoped BigOperators

/-- Square complex matrices of side `d`, the embedding of a `Qobj` matrix on a
`d`-dimensional Hilbert space. -/
abbrev CMat (d : ℕ) := Matrix (Fin d) (Fin d) ℂ

/-- Square complex matrices on the doubled space, the embedding of a Choi
matrix for maps on `d`-dimensional systems (side `d * d`, indexed by pairs). -/
abbrev CMat2 (d : ℕ) := Matrix (Fin d × Fin d) (Fin d × Fin d) ℂ

/-- Modelled from the spec: the tensor (Kronecker) product helper `kron` of the
routines module (repository code not under src/), the standard Kronecker
product of two square matrices, indexed here by pairs. -/
def kron {d : ℕ} (A B : CMat d) : CMat2 d :=
  Matrix.of fun p q => A p.1 q.1 * B p.2 q.2

/-- Modelled from the spec: one element of the output of
`generate_single_entries` of the routines module (repository code not under
src/): the matrix with a single unit entry at row `p`, column `q`. -/
def singleEntry {d : ℕ} (p q : Fin d) : CMat d :=
  Matrix.stdBasisMatrix p q 1

/-- Modelled from the spec: the partial trace over the first subsystem of the
doubled space, embedding `Qobj.ptrace(range(n_qubits, 2 * n_qubits))` (keep
the second half, trace out the first) of the external Qobj layer. -/
noncomputable def ptraceFirst {d : ℕ} (M : CMat2 d) : CMat d :=
  Matrix.of fun i j => ∑ k : Fin d, M (k, i) (k, j)

/-- The lazy Choi construction of `Channel.choi` (channel.py lines 73-78): the
sum over all single-entry basis operators `E` of `kron E (f E)`. -/
noncomputable def choiFromFunc {d : ℕ} (f : CMat d → CMat d) : CMat2 d :=
  ∑ p : Fin d, ∑ q : Fin d, kron (singleEntry p q) (f (singleEntry p q))

/-- The Choi-path action of `Channel.transform` (channel.py lines 96-97):
tensor the transpose of the state with the identity, multiply by the Choi
matrix, partial-trace out the first subsystem. -/
noncomputable def choiAction {d : ℕ} (J : CMat2 d) (ρ : CMat d) : CMat d :=
  ptraceFirst (kron ρ.transpose 1 * J)

theorem choiAction_choiFromFunc {d : ℕ} (f : CMat d → CMat d)
    (hf : IsLinearMap ℂ f) (ρ : CMat d) :
    choiAction (choiFromFunc f) ρ = f ρ := by
  have hrho : f ρ = ∑ a : Fin d, ∑ b : Fin d, ρ a b • f (singleEntry a b) := by
    have h1 : f ρ = (IsLinearMap.mk' f hf) ρ := rfl
    rw [h1]
    conv_lhs => rw [Matrix.matrix_eq_sum_stdBasisMatrix ρ]
    rw [map_sum]
    refine Finset.sum_congr rfl fun a _ => ?_
    rw [map_sum]
    refine Finset.sum_congr rfl fun b _ => ?_
    have h2 : Matrix.stdBasisMatrix a b (ρ a b) = ρ a b • singleEntry a b := by
      rw [singleEntry, Matrix.smul_stdBasisMatrix, smul_eq_mul, mul_one]
    rw [h2, map_smul]
    rfl
  rw [hrho]
  ext i j
  simp only [choiAction, ptraceFirst, Matrix.of_apply, Matrix.mul_apply,
    Fintype.sum_prod_type, kron, choiFromFunc, singleEntry,
    Matrix.sum_apply, Matrix.stdBasisMatrix, Matrix.one_apply,
    Matrix.transpose_apply, Matrix.smul_apply, smul_eq_mul, ite_and,
    mul_ite, ite_mul, one_mul, mul_one, zero_mul, mul_zero,
    Finset.sum_ite_eq, Finset.sum_ite_eq', Finset.mem_univ, if_true,
    Finset.sum_ite_irrel, Finset.sum_const_zero]
  rw [Finset.sum_comm]

/-- The embedding of the `Channel` class (channel.py): a fixed qubit count `n`
(states have side `2 ^ n`), the two validity tags (membership of the strings
`func` and `choi` in `self._types`), and the two stored representations.
Python stores `None` for an absent representation; here the field keeps a
stale or zero value and the tag alone decides validity. -/
structure Channel (n : ℕ) where
  typesFunc : Bool
  typesChoi : Bool
  func : CMat (2 ^ n) → CMat (2 ^ n)
  choiM : CMat2 (2 ^ n)

namespace Channel

/-- The constructor branch for callable `data` with `n_qubits` given
(channel.py lines 48-54). -/
noncomputable def ofFunc {n : ℕ} (f : CMat (2 ^ n) → CMat (2 ^ n)) : Channel n :=
  ⟨true, false, f, 0⟩

/-- The constructor branch for array-like `data`, interpreted as a Choi matrix
(channel.py lines 55-59). -/
noncomputable def ofChoi {n : ℕ} (J : CMat2 (2 ^ n)) : Channel n :=
  ⟨false, true, fun _ => 0, J⟩

/-- The method `Channel.set_func` (channel.py lines 63-68): marks the function
representation valid, discards the `choi` tag, stores the new function.  The
cached Choi matrix field is left stale, exactly as the Python keeps
`self._choi`. -/
def setFunc {n : ℕ} (c : Channel n) (f : CMat (2 ^ n) → CMat (2 ^ n)) :
    Channel n :=
  ⟨true, false, f, c.choiM⟩

/-- The `choi` property setter (channel.py lines 80-87): marks the Choi
representation valid, discards the `func` tag, stores the new matrix.  The
stored function field is left stale, exactly as the Python keeps
`self._func`. -/
def setChoi {n : ℕ} (c : Channel n) (J : CMat2 (2 ^ n)) : Channel n :=
  ⟨false, true, c.func, J⟩

/-- The `choi` property getter (channel.py lines 70-78): if the Choi tag is
absent, compute the Choi matrix from the function representation by the
single-entry sum, cache it and add the tag.  Returns the matrix together with
the mutated channel. -/
noncomputable def choiGet {n : ℕ} (c : Channel n) : CMat2 (2 ^ n) × Channel n :=
  if c.typesChoi then (c.choiM, c)
  else
    let J := choiFromFunc c.func
    (J, ⟨c.typesFunc, true, c.func, J⟩)

/-- The method `Channel.transform` (channel.py lines 89-98): use the function
representation when its tag is present, otherwise read the `choi` property
and apply the Choi-path action.  Returns the output state together with the
(possibly mutated, via the property read) channel. -/
noncomputable def transform {n : ℕ} (c : Channel n) (ρ : CMat (2 ^ n)) :
    CMat (2 ^ n) × Channel n :=
  if c.typesFunc then (c.func ρ, c)
  else
    let JC := c.choiGet
    (choiAction JC.1 ρ, JC.2)

/-- The channels reachable through the public lifecycle: either constructor
branch followed by any sequence of `set_func` calls, Choi-setter assignments,
lazy Choi reads, and transform calls. -/
inductive Reachable (n : ℕ) : Channel n → Prop
  | ofFunc (f) : Reachable n (ofFunc f)
  | ofChoi (J) : Reachable n (ofChoi J)
  | setFunc (c f) : Reachable n c → Reachable n (setFunc c f)
  | setChoi (c J) : Reachable n c → Reachable n (setChoi c J)
  | choiGet (c) : Reachable n c → Reachable n (choiGet c).2
  | transform (c ρ) : Reachable n c → Reachable n (transform c ρ).2

end Channel

/-- The behaviour of the two explicit setters on every channel: `set_func`
marks the function form valid and invalidates exactly the Choi form, the
Choi setter marks the Choi form valid and invalidates exactly the function
form, and a subsequent `transform` uses only the newly valid form. -/
def setterFacts (n : ℕ) : Prop :=
  ∀ (c : Channel n) (f : CMat (2 ^ n) → CMat (2 ^ n)) (J : CMat2 (2 ^ n))
    (ρ : CMat (2 ^ n)),
    (c.setFunc f).typesFunc = true ∧ (c.setFunc f).typesChoi = false
    ∧ (c.setChoi J).typesChoi = true ∧ (c.setChoi J).typesFunc = false
    ∧ ((c.setFunc f).transform ρ).1 = f ρ
    ∧ ((c.setChoi J).transform ρ).1 = choiAction J ρ

/-- The data-kind branching of the `Channel` constructor (channel.py lines
46-61), abstracting the payload: callable data, array-like data with its side
length, or anything else.  Outcomes are the derived `n_qubits` together with
the two validity tags, or the raised `ValueError` message; `n_qubits` for an
array of side `s` models `int(np.log2(s) / 2)` as `Nat.log 2 s / 2`. -/
inductive InitData where
  | callable
  | array (side : ℕ)
  | other

/-- The `Channel.__init__` outcome: given the data kind and the optional
`n_qubits` argument, err or return `(n_qubits, typesFunc, typesChoi)`. -/
def initChannel : InitData → Option ℕ → Except String (ℕ × Bool × Bool)
  | InitData.callable, none =>
      Except.error "`n_qubits` argument is compulsory when using init with function"
  | InitData.callable, some n => Except.ok (n, true, false)
  | InitData.array s, _ => Except.ok (Nat.log 2 s / 2, false, true)
  | InitData.other, _ => Except.error "Invalid data format"

/-- Claim C1: for every linear transformation function on `n`-qubit states, a
Channel built from it, with the Choi matrix forced by the lazy construction
and the function representation then invalidated (by assigning that matrix
through the Choi setter), transforms every input state via the Choi path to
exactly the output of the function: the two paths are observationally
equivalent. -/
theorem C1_choi_round_trip {n : ℕ} (f : CMat (2 ^ n) → CMat (2 ^ n))
    (hf : IsLinearMap ℂ f) (ρ : CMat (2 ^ n)) :
    (((Channel.ofFunc (n := n) f).setChoi
        ((Channel.ofFunc (n := n) f).choiGet.1)).transform ρ).1 = f ρ := by
  have h1 : ((Channel.ofFunc (n := n) f).choiGet.1) = choiFromFunc f := by
    simp [Channel.choiGet, Channel.ofFunc]
  rw [h1]
  have h2 : (((Channel.ofFunc (n := n) f).setChoi (choiFromFunc f)).transform ρ).1
      = choiAction (choiFromFunc f) ρ := by
    simp [Channel.transform, Channel.choiGet, Channel.setChoi, Channel.ofFunc]
  rw [h2, choiAction_choiFromFunc f hf]

/-- Witness for C1 at the identity map on one qubit and the identity state. -/
theorem C1_witness :
    IsLinearMap ℂ (fun m : CMat (2 ^ 1) => m)
    ∧ (((Channel.ofFunc (n := 1) (fun m => m)).setChoi
        ((Channel.ofFunc (n := 1) (fun m => m)).choiGet.1)).transform 1).1
      = (fun m : CMat (2 ^ 1) => m) 1 :=
  ⟨⟨fun _ _ => rfl, fun _ _ => rfl⟩,
    C1_choi_round_trip (fun m => m) ⟨fun _ _ => rfl, fun _ _ => rfl⟩ 1⟩

/-- Claim C5: every channel reachable through the constructors and any
sequence of `set_func` calls, Choi-setter assignments, lazy Choi reads and
transforms has at least one valid representation, and the two setters each
mark their own representation valid while invalidating exactly the other, so
a subsequent transform uses only the newly valid form. -/
theorem C5_representation_invariant {n : ℕ} (c : Channel n)
    (hr : Channel.Reachable n c) :
    (c.typesFunc = true ∨ c.typesChoi = true) ∧ setterFacts n := by
  constructor
  · induction hr with
    | ofFunc f => exact Or.inl rfl
    | ofChoi J => exact Or.inr rfl
    | setFunc c f _ _ => exact Or.inl rfl
    | setChoi c J _ _ => exact Or.inr rfl
    | choiGet c _ ih =>
        by_cases h : c.typesChoi
        · simp [Channel.choiGet, h]
        · simp [Channel.choiGet, h]
    | transform c ρ _ ih =>
        by_cases h : c.typesFunc
        · simp [Channel.transform, h]
        · by_cases h2 : c.typesChoi
          · simp [Channel.transform, h, Channel.choiGet, h2]
          · simp [Channel.transform, h, Channel.choiGet, h2]
  · intro c0 f J ρ
    refine ⟨rfl, rfl, rfl, rfl, ?_, ?_⟩
    · simp [Channel.transform, Channel.setFunc]
    · simp [Channel.transform, Channel.setChoi, Channel.choiGet]

/-- Witness for C5 at a channel freshly constructed from the identity
function on one qubit. -/
theorem C5_witness :
    Channel.Reachable 1 (Channel.ofFunc (fun m => m))
    ∧ (((Channel.ofFunc (n := 1) (fun m => m)).typesFunc = true
        ∨ (Channel.ofFunc (n := 1) (fun m => m)).typesChoi = true)
      ∧ setterFacts 1) :=
  ⟨Channel.Reachable.ofFunc _,
    C5_representation_invariant _ (Channel.Reachable.ofFunc _)⟩

/-- Claim C8: constructing a Channel errs exactly when the data is callable
with `n_qubits` omitted (configuration error) or the data is neither callable
nor array-like (invalid-format error); array-like data of well-formed side
`4 ^ n` succeeds with `n_qubits` derived as `log2(side) / 2 = n` and only the
Choi representation valid, while callable data with `n_qubits` given succeeds
with only the function representation valid. -/
theorem C8_constructor_errors :
    (initChannel InitData.callable none).isOk = false
    ∧ (∀ n : ℕ, initChannel InitData.callable (some n) = Except.ok (n, true, false))
    ∧ (∀ (n : ℕ) (o : Option ℕ),
        initChannel (InitData.array (4 ^ n)) o = Except.ok (n, false, true))
    ∧ (∀ o : Option ℕ, (initChannel InitData.other o).isOk = false) := by
  refine ⟨rfl, fun n => rfl, fun n o => ?_, fun o => rfl⟩
  have h4 : (4 : ℕ) ^ n = 2 ^ (2 * n) := by
    rw [show (4 : ℕ) = 2 ^ 2 by norm_num, ← pow_mul]
  have hlog : Nat.log 2 (4 ^ n) = 2 * n := by
    rw [h4, Nat.log_pow (by norm_num)]
  cases o <;> simp [initChannel, hlog, Nat.mul_div_cancel_left n (by norm_num : 0 < 2)]

/-- Claim C9: reading the `choi` property twice with no intervening mutation
returns the identical cached matrix and leaves the channel unchanged; the
first read marks the Choi tag valid and caches the returned matrix, the
second read returns exactly the stored field, and on a channel built from a
function the first read computes the single-entry-sum Choi matrix. -/
theorem C9_choi_idempotent {n : ℕ} :
    ∀ (c : Channel n) (f : CMat (2 ^ n) → CMat (2 ^ n)),
    (c.choiGet.2).choiGet.1 = c.choiGet.1
    ∧ (c.choiGet.2).choiGet.2 = c.choiGet.2
    ∧ (c.choiGet.2).typesChoi = true
    ∧ (c.choiGet.2).choiGet.1 = (c.choiGet.2).choiM
    ∧ (Channel.ofFunc (n := n) f).choiGet.1 = choiFromFunc f
    ∧ ((Channel.ofFunc (n := n) f).choiGet.2).choiM = choiFromFunc f := by
  intro c f
  by_cases h : c.typesChoi <;>
    simp [Channel.choiGet, Channel.ofFunc, h]

/-- Claim C10: `transform` does not mutate the channel: on any channel with
at least one valid representation (the class invariant), the channel returned
alongside the output state is the input channel itself, so the validity tags,
the cached Choi matrix, the stored function and the qubit count are all
unchanged, and in particular no Choi computation is triggered or cached on a
function-only channel. -/
theorem C10_transform_pure {n : ℕ} (c : Channel n) (ρ : CMat (2 ^ n))
    (hv : c.typesFunc = true ∨ c.typesChoi = true) :
    (c.transform ρ).2 = c := by
  by_cases h : c.typesFunc
  · simp [Channel.transform, h]
  · have h2 : c.typesChoi = true := by
      rcases hv with hv | hv
      · exact absurd hv h
      · exact hv
    simp [Channel.transform, h, Channel.choiGet, h2]

/-- Witness for C10 at a function-only channel on one qubit and the identity
input state. -/
theorem C10_witness :
    ((Channel.ofFunc (n := 1) (fun m => m)).typesFunc = true
      ∨ (Channel.ofFunc (n := 1) (fun m => m)).typesChoi = true)
    ∧ ((Channel.ofFunc (n := 1) (fun m => m)).transform 1).2
      = Channel.ofFunc (n := 1) (fun m => m) :=
  ⟨Or.inl rfl, C10_transform_pure _ 1 (Or.inl rfl)⟩

/-- The experimented state of a `Tomograph` (tomography.py): the accumulated
measurement matrix as a list of rows (exact rational entries standing for the
floating-point values), the accumulated outcome counts, and the total
measurement count. -/
structure TomographData where
  POVM_matrix : List (List ℚ)
  results : List ℕ
  n_measurements : ℕ
deriving DecidableEq

/-- Elementwise scaling of a matrix by a scalar, `M * c` in numpy. -/
def scaleRows (c : ℚ) (M : List (List ℚ)) : List (List ℚ) :=
  M.map fun row => row.map fun x => x * c

/-- Elementwise division of a matrix by a scalar, `M / c` in numpy. -/
def divRows (c : ℚ) (M : List (List ℚ)) : List (List ℚ) :=
  M.map fun row => row.map fun x => x / c

/-- The method `Tomograph.experiment` (tomography.py lines 150-164) given the externally
generated measurement matrix `M` and the multinomially sampled outcome counts
`r` for this call: with `warm_start` the stored matrix becomes
`vstack(old * n_old, M * m) / (n_old + m)`, outcomes are `hstack`-ed and the
counts summed; otherwise the new data replaces the old. -/
def experiment (t : TomographData) (m : ℕ) (M : List (List ℚ)) (r : List ℕ)
    (warm : Bool) : TomographData :=
  if warm then
    { POVM_matrix := divRows ((t.n_measurements : ℚ) + (m : ℚ))
        (scaleRows (t.n_measurements : ℚ) t.POVM_matrix ++ scaleRows (m : ℚ) M)
      results := t.results ++ r
      n_measurements := t.n_measurements + m }
  else
    { POVM_matrix := M, results := r, n_measurements := m }

/-- Entrywise sum of two matrices of the same shape. -/
def addMat (A B : List (List ℚ)) : List (List ℚ) :=
  List.zipWith (List.zipWith (fun x y => x + y)) A B

/-- Modelled from the spec: the measurement-count-weighted average of the old
and new measurement matrices, with weights `m1 / (m1 + m2)` and
`m2 / (m1 + m2)`, as the words of the claim describe the combined matrix. -/
def weightedAvg (m1 : ℕ) (M1 : List (List ℚ)) (m2 : ℕ) (M2 : List (List ℚ)) :
    List (List ℚ) :=
  addMat (scaleRows ((m1 : ℚ) / ((m1 : ℚ) + (m2 : ℚ))) M1)
    (scaleRows ((m2 : ℚ) / ((m1 : ℚ) + (m2 : ℚ))) M2)

/-- Counterexample to claim C2: a warm-start experiment on a stored one-row
matrix `[[1]]` with one old measurement, adding one new measurement with new
matrix `[[1]]`, stores `[[1/2], [1/2]]` (two rows), not the weighted average
`[[1]]` of the two matrices. -/
theorem C2_counterexample :
    (experiment ⟨[[1]], [1], 1⟩ 1 [[1]] [1] true).POVM_matrix
      ≠ weightedAvg 1 [[1]] 1 [[1]] := by
  intro h
  have hlen := congrArg List.length h
  simp [experiment, divRows, scaleRows, weightedAvg, addMat,
    List.length_zipWith] at hlen

/-- Claim C2 as amended: after a warm-start call the stored measurement
matrix is the row-wise concatenation of the old matrix scaled by
`m1 / (m1 + m2)` and the new matrix scaled by `m2 / (m1 + m2)` (not their
same-shape average), the outcome vector is the concatenation of the old
outcomes followed by the new ones, and the total count is `m1 + m2`. -/
theorem C2_amended_thm (t : TomographData) (m : ℕ) (M : List (List ℚ))
    (r : List ℕ) :
    (experiment t m M r true).POVM_matrix
      = scaleRows ((t.n_measurements : ℚ) / ((t.n_measurements : ℚ) + (m : ℚ)))
          t.POVM_matrix
        ++ scaleRows ((m : ℚ) / ((t.n_measurements : ℚ) + (m : ℚ))) M
    ∧ (experiment t m M r true).results = t.results ++ r
    ∧ (experiment t m M r true).n_measurements = t.n_measurements + m := by
  refine ⟨?_, rfl, rfl⟩
  have key : ∀ (a s : ℚ) (P : List (List ℚ)),
      divRows s (scaleRows a P) = scaleRows (a / s) P := by
    intro a s P
    simp only [divRows, scaleRows, List.map_map]
    refine List.map_congr_left fun row _ => ?_
    simp only [Function.comp, List.map_map]
    refine List.map_congr_left fun x _ => ?_
    simp only [Function.comp]
    rw [mul_div_assoc]
  show divRows ((t.n_measurements : ℚ) + (m : ℚ))
      (scaleRows (t.n_measurements : ℚ) t.POVM_matrix ++ scaleRows (m : ℚ) M) = _
  rw [divRows, List.map_append, ← divRows, ← divRows, key, key]

/-- The invariant of claim C4 on an experimented Tomograph: the outcome
vector has one entry per row of the stored measurement matrix, and its
entries sum to the stored total measurement count. -/
def TomoInv (t : TomographData) : Prop :=
  t.results.length = t.POVM_matrix.length ∧ t.results.sum = t.n_measurements

/-- One warm-start call: requested count, generated matrix, sampled counts. -/
abbrev ExpCall := ℕ × List (List ℚ) × List ℕ

/-- What the multinomial sampler guarantees about one call: the sampled
vector has one entry per matrix row and sums to the requested count. -/
def callOk (c : ExpCall) : Prop :=
  c.2.2.length = c.2.1.length ∧ c.2.2.sum = c.1

/-- A sequence of warm-start experiment calls, folded in call order. -/
def runWarm (t : TomographData) (calls : List ExpCall) : TomographData :=
  calls.foldl (fun s c => experiment s c.1 c.2.1 c.2.2 true) t

theorem experiment_warm_inv (t : TomographData) (c : ExpCall)
    (ht : TomoInv t) (hc : callOk c) :
    TomoInv (experiment t c.1 c.2.1 c.2.2 true)
    ∧ (experiment t c.1 c.2.1 c.2.2 true).n_measurements
        = t.n_measurements + c.1
    ∧ (experiment t c.1 c.2.1 c.2.2 true).results = t.results ++ c.2.2 := by
  obtain ⟨h1, h2⟩ := ht
  obtain ⟨hc1, hc2⟩ := hc
  refine ⟨⟨?_, ?_⟩, rfl, rfl⟩
  · simp [experiment, divRows, scaleRows, h1, hc1]
  · simp [experiment, h2, hc2]

theorem runWarm_inv (calls : List ExpCall) :
    ∀ t : TomographData, TomoInv t → (∀ c ∈ calls, callOk c) →
    TomoInv (runWarm t calls)
    ∧ (runWarm t calls).n_measurements
        = t.n_measurements + (calls.map fun c => c.1).sum
    ∧ (runWarm t calls).results
        = t.results ++ (calls.map fun c => c.2.2).flatten := by
  induction calls with
  | nil => intro t ht _; simpa [runWarm] using ht
  | cons c rest ih =>
      intro t ht hc
      have hstep := experiment_warm_inv t c ht (hc c (List.mem_cons_self c rest))
      have htail := ih (experiment t c.1 c.2.1 c.2.2 true) hstep.1
        fun d hd => hc d (List.mem_cons_of_mem c hd)
      refine ⟨htail.1, ?_, ?_⟩
      · rw [show runWarm t (c :: rest)
            = runWarm (experiment t c.1 c.2.1 c.2.2 true) rest from rfl,
          htail.2.1, hstep.2.1, List.map_cons, List.sum_cons, Nat.add_assoc]
      · rw [show runWarm t (c :: rest)
            = runWarm (experiment t c.1 c.2.1 c.2.2 true) rest from rfl,
          htail.2.2, hstep.2.2, List.map_cons, List.flatten_cons,
          List.append_assoc]

/-- Claim C4: a fresh experiment call whose sampled counts match the
multinomial contract establishes the invariant (outcome-vector length equals
the number of matrix rows, outcome sum equals the stored count); any single
further call, warm or cold, preserves it; and after a fresh call followed by
any sequence of warm-start calls the total count is the sum of all per-call
counts and the outcome vector is the concatenation of the per-call outcomes
in call order. -/
theorem C4_experiment_invariants (t0 : TomographData) (m : ℕ)
    (M : List (List ℚ)) (r : List ℕ) (h1 : r.length = M.length)
    (h2 : r.sum = m) (calls : List ExpCall) (hc : ∀ c ∈ calls, callOk c) :
    TomoInv (experiment t0 m M r false)
    ∧ (∀ (t : TomographData) (warm : Bool), TomoInv t →
        TomoInv (experiment t m M r warm))
    ∧ TomoInv (runWarm (experiment t0 m M r false) calls)
    ∧ (runWarm (experiment t0 m M r false) calls).n_measurements
        = m + (calls.map fun c => c.1).sum
    ∧ (runWarm (experiment t0 m M r false) calls).results
        = r ++ (calls.map fun c => c.2.2).flatten := by
  have hfresh : TomoInv (experiment t0 m M r false) := ⟨h1, h2⟩
  have hrun := runWarm_inv calls (experiment t0 m M r false) hfresh hc
  refine ⟨hfresh, ?_, hrun.1, ?_, ?_⟩
  · intro t warm ht
    cases warm with
    | false => exact ⟨h1, h2⟩
    | true => exact (experiment_warm_inv t (m, M, r) ht ⟨h1, h2⟩).1
  · simpa [experiment] using hrun.2.1
  · simpa [experiment] using hrun.2.2

/-- Witness for C4: one fresh call of two measurements on a two-row matrix,
followed by one warm-start call of one measurement on a one-row matrix. -/
theorem C4_witness :
    (([1, 1] : List ℕ).length = ([[1], [2]] : List (List ℚ)).length
      ∧ ([1, 1] : List ℕ).sum = 2
      ∧ ∀ c ∈ ([(1, [[3]], [1])] : List ExpCall), callOk c)
    ∧ (TomoInv (experiment ⟨[], [], 0⟩ 2 [[1], [2]] [1, 1] false)
      ∧ (∀ (t : TomographData) (warm : Bool), TomoInv t →
          TomoInv (experiment t 2 [[1], [2]] [1, 1] warm))
      ∧ TomoInv (runWarm (experiment ⟨[], [], 0⟩ 2 [[1], [2]] [1, 1] false)
          [(1, [[3]], [1])])
      ∧ (runWarm (experiment ⟨[], [], 0⟩ 2 [[1], [2]] [1, 1] false)
          [(1, [[3]], [1])]).n_measurements
        = 2 + (([(1, [[3]], [1])] : List ExpCall).map fun c => c.1).sum
      ∧ (runWarm (experiment ⟨[], [], 0⟩ 2 [[1], [2]] [1, 1] false)
          [(1, [[3]], [1])]).results
        = [1, 1] ++ (([(1, [[3]], [1])] : List ExpCall).map fun c => c.2.2).flatten) :=
  ⟨⟨rfl, rfl, fun c hc => by
      rw [List.mem_singleton] at hc
      subst hc
      exact ⟨rfl, rfl⟩⟩,
    C4_experiment_invariants ⟨[], [], 0⟩ 2 [[1], [2]] [1, 1] rfl rfl
      [(1, [[3]], [1])] (fun c hc => by
        rw [List.mem_singleton] at hc
        subst hc
        exact ⟨rfl, rfl⟩)⟩

/-- The Euclidean norm `scipy.linalg.norm(v, ord=2)` of a vector. -/
noncomputable def euclNorm (v : List ℝ) : ℝ :=
  Real.sqrt (v.map fun x => x ^ 2).sum

/-- The physicality bound `sqrt((2 ** dim - 1) / (4 ** dim))` of
tomography.py lines 178 and 191. -/
noncomputable def maxNormB (d : ℕ) : ℝ :=
  Real.sqrt (((2 : ℝ) ^ d - 1) / (4 : ℝ) ^ d)

/-- Elementwise scaling of a vector, `v * c` in numpy. -/
noncomputable def scaleVec (c : ℝ) (v : List ℝ) : List ℝ :=
  v.map fun x => x * c

/-- The method `Tomograph._point_estimate_lin` (tomography.py lines 175-181) after the
pseudo-inverse step: given the raw Bloch vector it produced (an oracle input
standing for `_left_inv(POVM_matrix) @ frequencies / 2 ** dim`), when
`physical` holds and the norm of all but the first coordinate exceeds the
bound, those coordinates are rescaled onto the bound. -/
noncomputable def pointEstimateLinCore (d : ℕ) (bloch : List ℝ)
    (physical : Bool) : List ℝ :=
  if physical = true ∧ maxNormB d < euclNorm bloch.tail then
    bloch.take 1 ++ scaleVec (maxNormB d / euclNorm bloch.tail) bloch.tail
  else bloch

/-- The method `Tomograph._point_estimate_mle` (tomography.py lines 190-195) after the
optimizer: given the optimizer output `x` (an oracle input, the non-fixed
coordinates), when `physical` holds and its norm exceeds the bound it is
rescaled onto the bound, then the fixed coordinate `1 / 2 ** dim` is
prepended. -/
noncomputable def pointEstimateMleCore (d : ℕ) (x : List ℝ)
    (physical : Bool) : List ℝ :=
  (1 / (2 : ℝ) ^ d) ::
    (if physical = true ∧ maxNormB d < euclNorm x then
      scaleVec (maxNormB d / euclNorm x) x
    else x)

theorem sumSq_nonneg (v : List ℝ) : 0 ≤ (v.map fun x => x ^ 2).sum :=
  List.sum_nonneg fun y hy => by
    obtain ⟨x, _, rfl⟩ := List.mem_map.1 hy
    exact sq_nonneg x

theorem euclNorm_scaleVec (c : ℝ) (v : List ℝ) :
    euclNorm (scaleVec c v) = |c| * euclNorm v := by
  unfold euclNorm scaleVec
  rw [List.map_map]
  have h : ((fun x => x ^ 2) ∘ fun x => x * c) = fun x => x ^ 2 * c ^ 2 := by
    funext x
    simp [Function.comp, mul_pow]
  rw [h, List.sum_map_mul_right, Real.sqrt_mul (sumSq_nonneg v),
    Real.sqrt_sq_eq_abs, mul_comm]

theorem euclNorm_project (B : ℝ) (hB : 0 ≤ B) (v : List ℝ)
    (h : B < euclNorm v) :
    euclNorm (scaleVec (B / euclNorm v) v) = B := by
  have hN : 0 < euclNorm v := lt_of_le_of_lt hB h
  rw [euclNorm_scaleVec, abs_of_nonneg (div_nonneg hB hN.le),
    div_mul_cancel₀ B hN.ne']

theorem tail_lin_proj (c : ℝ) (v : List ℝ) :
    (v.take 1 ++ scaleVec c v.tail).tail = scaleVec c v.tail := by
  cases v with
  | nil => simp [scaleVec]
  | cons h t => simp

/-- Claim C3: for every qubit count and every raw linear-inversion Bloch
vector and every optimizer output, the estimate returned with
`physical = true` has non-fixed-coordinate Euclidean norm at most
`sqrt((2 ^ n - 1) / 4 ^ n)`, for both the `lin` and the `mle` paths; and
whenever the raw vector exceeds the bound, the non-fixed coordinates are
rescaled to sit exactly on the bound. -/
theorem C3_physicality (d : ℕ) (bloch x : List ℝ) :
    euclNorm (pointEstimateLinCore d bloch true).tail ≤ maxNormB d
    ∧ euclNorm (pointEstimateMleCore d x true).tail ≤ maxNormB d
    ∧ (maxNormB d < euclNorm bloch.tail →
        euclNorm (pointEstimateLinCore d bloch true).tail = maxNormB d)
    ∧ (maxNormB d < euclNorm x →
        euclNorm (pointEstimateMleCore d x true).tail = maxNormB d) := by
  have hB : 0 ≤ maxNormB d := Real.sqrt_nonneg _
  have hlin : maxNormB d < euclNorm bloch.tail →
      euclNorm (pointEstimateLinCore d bloch true).tail = maxNormB d := by
    intro h
    rw [pointEstimateLinCore, if_pos ⟨rfl, h⟩, tail_lin_proj,
      euclNorm_project _ hB _ h]
  have hmle : maxNormB d < euclNorm x →
      euclNorm (pointEstimateMleCore d x true).tail = maxNormB d := by
    intro h
    rw [pointEstimateMleCore, if_pos ⟨rfl, h⟩, List.tail_cons,
      euclNorm_project _ hB _ h]
  refine ⟨?_, ?_, hlin, hmle⟩
  · by_cases h : maxNormB d < euclNorm bloch.tail
    · exact le_of_eq (hlin h)
    · rw [pointEstimateLinCore, if_neg fun hc => h hc.2]
      exact le_of_not_lt h
  · by_cases h : maxNormB d < euclNorm x
    · exact le_of_eq (hmle h)
    · rw [pointEstimateMleCore, if_neg fun hc => h hc.2, List.tail_cons]
      exact le_of_not_lt h

/-- Witness for C3 at one qubit count 0, raw vector `[0, 1]` and optimizer
output `[1]`, both strictly above the bound, so the exact-projection branches
fire. -/
theorem C3_witness :
    (maxNormB 0 < euclNorm ([0, 1] : List ℝ).tail
      ∧ euclNorm (pointEstimateLinCore 0 [0, 1] true).tail = maxNormB 0)
    ∧ (maxNormB 0 < euclNorm ([1] : List ℝ)
      ∧ euclNorm (pointEstimateMleCore 0 [1] true).tail = maxNormB 0) := by
  have hm : maxNormB 0 = 0 := by
    simp [maxNormB]
  have h1 : maxNormB 0 < euclNorm ([(0 : ℝ), 1]).tail := by
    rw [hm]
    simp [euclNorm]
  have h2 : maxNormB 0 < euclNorm ([(1 : ℝ)]) := by
    rw [hm]
    simp [euclNorm]
  exact ⟨⟨h1, (C3_physicality 0 [0, 1] [1]).2.2.1 h1⟩,
    ⟨h2, (C3_physicality 0 [0, 1] [1]).2.2.2 h2⟩⟩

/-- The two estimators `point_estimate` can dispatch to. -/
inductive EstBranch where
  | lin
  | mle
deriving DecidableEq

/-- The `Tomograph.point_estimate` dispatch (tomography.py lines 166-170), raised
`ValueError`s modelled as `Except.error`: the code contains no raise here and
sends every method value other than `lin` to the MLE branch. -/
def pointEstimateDispatch (method : String) : Except String EstBranch :=
  if method = "lin" then Except.ok EstBranch.lin else Except.ok EstBranch.mle

/-- Counterexample to claim C6: an unrecognized method key does not fail with
a configuration error; it silently dispatches to the MLE estimator. -/
theorem C6_counterexample :
    pointEstimateDispatch "typo" = Except.ok EstBranch.mle := by
  rw [pointEstimateDispatch, if_neg (by decide : ¬("typo" : String) = "lin")]

/-- Claim C6 as amended: `point_estimate` never raises on the method key;
`method = 'lin'` dispatches to linear inversion and every other value
(including unrecognized keys) dispatches to MLE. -/
theorem C6_amended_thm (method : String) :
    (pointEstimateDispatch method = Except.ok EstBranch.lin ↔ method = "lin")
    ∧ ∃ e : EstBranch, pointEstimateDispatch method = Except.ok e := by
  by_cases h : method = "lin"
  · subst h
    refine ⟨⟨fun _ => rfl, fun _ => ?_⟩, EstBranch.lin, ?_⟩
    · rw [pointEstimateDispatch, if_pos rfl]
    · rw [pointEstimateDispatch, if_pos rfl]
  · refine ⟨⟨fun hok => ?_, fun hlin => absurd hlin h⟩, EstBranch.mle, ?_⟩
    · rw [pointEstimateDispatch, if_neg h] at hok
      exact EstBranch.noConfusion (Except.ok.inj hok)
    · rw [pointEstimateDispatch, if_neg h]

/-- Modelled from the spec: the Bloch-vector view of `SIGMA_I / 2` (the
single-qubit maximally mixed state; `SIGMA_I` and the Qobj Bloch view are
repository code not under src/): length `4 ^ 1`, the fixed trace coordinate
`1 / 2` first, the non-fixed coordinates all zero. -/
def blochSigmaIHalf : List ℚ := [1 / 2, 0, 0, 0]

/-- The initial guess `x0` handed to the optimizer by `_point_estimate_mle`
(tomography.py line 187): the non-fixed Bloch coordinates of `SIGMA_I / 2`,
independent of the Tomograph and in particular of its qubit count. -/
def mleX0 : List ℚ := blochSigmaIHalf.tail

/-- Counterexample to claim C7: for a two-qubit Tomograph the initial guess
is still the length-3 vector of the single-qubit mixed state, not the
all-zero vector of length `4 ^ 2 - 1 = 15` the claim asserts for that qubit
count. -/
theorem C7_counterexample : mleX0 ≠ List.replicate (4 ^ 2 - 1) (0 : ℚ) := by
  intro h
  have hlen := congrArg List.length h
  simp [mleX0, blochSigmaIHalf] at hlen

/-- Claim C7 as amended: the initial guess is always the all-zero vector of
length `4 ^ 1 - 1 = 3`, the non-fixed Bloch coordinates of the single-qubit
maximally mixed state, whatever the qubit count of the Tomograph; it matches
the claim exactly when `n = 1`. -/
theorem C7_amended_thm :
    mleX0 = List.replicate (4 ^ 1 - 1) (0 : ℚ) ∧ ∀ y ∈ mleX0, y = 0 := by
  constructor
  · decide
  · decide
